import Mathlib

/-!
Shallow embedding of the FIR filter design core of the repository
(src/pbl3_v4.py and src/versao_atualizada_jarvis/versao_nova.py).

Floating-point arithmetic is modelled over the exact reals; the Python
floats' transcendental functions (sin, cos, log10, sqrt, the modified
Bessel function) become their Mathlib counterparts.  Fallible paths
(the Kaiser estimator's validation, the dB-crossing search) return
Option.  Lists model numpy arrays.
-/

namespace FIR

open Real

/-- Filter kinds of pbl3_v4 (strings "passa-baixa", "passa-alta",
"passa-faixa", "rejeita-faixa" in the source). -/
inductive FilterType
  | lowpass
  | highpass
  | bandpass
  | bandstop
deriving DecidableEq, Repr

/-- Window kinds of pbl3_v4 get_window (strings "retangular", "hamming",
"hanning", "blackman", "bartlett", "kaiser" in the source). -/
inductive WindowKind
  | rectangular
  | hamming
  | hanning
  | blackman
  | bartlett
  | kaiser
deriving DecidableEq, Repr

/-- pbl3_v4 design_kaiser_filter, line 411: A = -20*log10(delta). -/
noncomputable def kaiserA (delta : ℝ) : ℝ := -20 * Real.logb 10 delta

/-- pbl3_v4 design_kaiser_filter, lines 415-420: the three beta branches
(if A > 50 / elif 21 <= A <= 50 / else 0). -/
noncomputable def kaiserBeta (A : ℝ) : ℝ :=
  if 50 < A then 0.1102 * (A - 8.7)
  else if 21 ≤ A ∧ A ≤ 50 then 0.5842 * (A - 21) ^ (0.4 : ℝ) + 0.07886 * (A - 21)
  else 0

/-- pbl3_v4 design_kaiser_filter, lines 423-424:
M = int(np.ceil((A - 8) / (2.285 * delta_omega))). -/
noncomputable def kaiserRawM (delta wp ws : ℝ) : ℤ :=
  ⌈(kaiserA delta - 8) / (2.285 * (ws - wp))⌉

/-- pbl3_v4 design_kaiser_filter, lines 427-428: if M % 2 == 0 then M += 1. -/
def oddify (m : ℤ) : ℤ := if m % 2 = 0 then m + 1 else m

/-- pbl3_v4 design_kaiser_filter, line 431: M = max(11, min(201, M)). -/
def clampOrder (m : ℤ) : ℤ := max 11 (min 201 m)

/-- The full order computation of pbl3_v4 design_kaiser_filter
(ceiling, odd-rounding, clamping), lines 423-431. -/
noncomputable def kaiserM (delta wp ws : ℝ) : ℤ :=
  clampOrder (oddify (kaiserRawM delta wp ws))

/-- pbl3_v4 design_kaiser_filter, lines 403-434: validation followed by the
computation of (A, beta, M, wc).  The inputs wp and ws are in radians (the
source multiplies the entered fractions by pi on lines 400-401 before this
block).  A raised ValueError is modelled as none; a successful run returns
the complete tuple. -/
noncomputable def design_kaiser_filter (delta wp ws : ℝ) : Option (ℝ × ℝ × ℤ × ℝ) :=
  if delta ≤ 0 ∨ 1 ≤ delta then none
  else if ws ≤ wp then none
  else if wp ≤ 0 ∨ π ≤ ws then none
  else some (kaiserA delta, kaiserBeta (kaiserA delta), kaiserM delta wp ws, (wp + ws) / 2)

/-- pbl3_v4 ideal_filter, lines 738-801.  One tap of the ideal impulse
response: N is the length, wc1 and wc2 the cutoffs in radians (the source
converts the entered fractions on lines 743-746), i the tap index.
The source writes alpha = M/2 with M = N-1 and tests abs(n[i]-alpha) < 1e-10
to pick the closed-form limit. -/
noncomputable def idealVal (ft : FilterType) (N : ℕ) (wc1 wc2 : ℝ) (i : ℕ) : ℝ :=
  match ft with
  | .lowpass =>
      if |(i : ℝ) - ((N : ℝ) - 1) / 2| < 1e-10 then wc1 / π
      else Real.sin (wc1 * ((i : ℝ) - ((N : ℝ) - 1) / 2)) / (π * ((i : ℝ) - ((N : ℝ) - 1) / 2))
  | .highpass =>
      if |(i : ℝ) - ((N : ℝ) - 1) / 2| < 1e-10 then 1 - wc1 / π
      else Real.sin (π * ((i : ℝ) - ((N : ℝ) - 1) / 2)) / (π * ((i : ℝ) - ((N : ℝ) - 1) / 2)) -
        Real.sin (wc1 * ((i : ℝ) - ((N : ℝ) - 1) / 2)) / (π * ((i : ℝ) - ((N : ℝ) - 1) / 2))
  | .bandpass =>
      if |(i : ℝ) - ((N : ℝ) - 1) / 2| < 1e-10 then (wc2 - wc1) / π
      else Real.sin (wc2 * ((i : ℝ) - ((N : ℝ) - 1) / 2)) / (π * ((i : ℝ) - ((N : ℝ) - 1) / 2)) -
        Real.sin (wc1 * ((i : ℝ) - ((N : ℝ) - 1) / 2)) / (π * ((i : ℝ) - ((N : ℝ) - 1) / 2))
  | .bandstop =>
      if |(i : ℝ) - ((N : ℝ) - 1) / 2| < 1e-10 then 1 - (wc2 - wc1) / π
      else Real.sin (π * ((i : ℝ) - ((N : ℝ) - 1) / 2)) / (π * ((i : ℝ) - ((N : ℝ) - 1) / 2)) -
        (Real.sin (wc2 * ((i : ℝ) - ((N : ℝ) - 1) / 2)) / (π * ((i : ℝ) - ((N : ℝ) - 1) / 2)) -
          Real.sin (wc1 * ((i : ℝ) - ((N : ℝ) - 1) / 2)) / (π * ((i : ℝ) - ((N : ℝ) - 1) / 2)))

/-- pbl3_v4 ideal_filter as an array of N taps (the h_ideal array filled by
the per-index loops). -/
noncomputable def ideal_filter (ft : FilterType) (N : ℕ) (wc1 wc2 : ℝ) : List ℝ :=
  (List.range N).map (idealVal ft N wc1 wc2)

/-- versao_nova.py ideal_lowpass, lines 429-444.  fc_norm is the cutoff
divided by Nyquist; omega_c = fc_norm * pi; the center tap (abs(n_centered)
< 1e-10) is set to 2 * fc_norm. -/
noncomputable def ideal_lowpass (N : ℕ) (fc_norm : ℝ) (i : ℕ) : ℝ :=
  if |(i : ℝ) - ((N : ℝ) - 1) / 2| < 1e-10 then 2 * fc_norm
  else 2 * fc_norm * Real.sin (fc_norm * π * ((i : ℝ) - ((N : ℝ) - 1) / 2)) /
    (fc_norm * π * ((i : ℝ) - ((N : ℝ) - 1) / 2))

/-- Modelled from the spec: the zero-order modified Bessel function I0 used
by scipy.signal.get_window(("kaiser", beta), N); scipy is not part of the
repository.  Spec section 4.1: I0 as its power series. -/
noncomputable def besselI0 (x : ℝ) : ℝ :=
  tsum fun k : ℕ => (x / 2) ^ (2 * k) / ((Nat.factorial k : ℝ)) ^ 2

/-- pbl3_v4 get_window, lines 673-728, one coefficient: M = N-1, index i.
The kaiser branch delegates to scipy; it is modelled from the spec's
section 4.1 formula w[n] = I0(beta * sqrt(1 - ((2n/M) - 1)^2)) / I0(beta). -/
noncomputable def windowVal (wk : WindowKind) (N : ℕ) (beta : ℝ) (i : ℕ) : ℝ :=
  match wk with
  | .rectangular => 1
  | .hamming => 0.54 - 0.46 * Real.cos (2 * π * (i : ℝ) / ((N : ℝ) - 1))
  | .hanning => 0.5 - 0.5 * Real.cos (2 * π * (i : ℝ) / ((N : ℝ) - 1))
  | .blackman => 0.42 - 0.5 * Real.cos (2 * π * (i : ℝ) / ((N : ℝ) - 1)) +
      0.08 * Real.cos (4 * π * (i : ℝ) / ((N : ℝ) - 1))
  | .bartlett =>
      if (i : ℝ) ≤ ((N : ℝ) - 1) / 2 then 2 * (i : ℝ) / ((N : ℝ) - 1)
      else 2 - 2 * (i : ℝ) / ((N : ℝ) - 1)
  | .kaiser =>
      besselI0 (beta * Real.sqrt (1 - (2 * (i : ℝ) / ((N : ℝ) - 1) - 1) ^ 2)) / besselI0 beta

/-- pbl3_v4 get_window as an array of N coefficients. -/
noncomputable def get_window (wk : WindowKind) (N : ℕ) (beta : ℝ) : List ℝ :=
  (List.range N).map (windowVal wk N beta)

/-- Modelled from the spec: scipy.signal.get_window('hamming', order) as
called by versao_nova.py design_filter, line 401; scipy is not part of the
repository.  Spec section 4.1: w[n] = 0.54 - 0.46*cos(2*pi*n/M), M = N-1
(the symmetric Hamming window). -/
noncomputable def scipy_hamming (N : ℕ) : List ℝ :=
  (List.range N).map fun n : ℕ => 0.54 - 0.46 * Real.cos (2 * π * (n : ℝ) / ((N : ℝ) - 1))

/-- The np.sign function as used in pbl3_v4 find_freq_at_db, line 948. -/
noncomputable def sgn (x : ℝ) : ℝ :=
  if x < 0 then -1 else if 0 < x then 1 else 0

/-- Index of the first adjacent pair of H_db whose shifted signs differ:
np.where(np.diff(np.sign(H_db - target_db)))[0][0] in pbl3_v4
find_freq_at_db, lines 948-950 (none when the index array is empty). -/
noncomputable def firstSignChange (t : ℝ) : List ℝ → Option ℕ
  | a :: b :: rest =>
      if sgn (a - t) ≠ sgn (b - t) then some 0
      else Option.map (fun k => k + 1) (firstSignChange t (b :: rest))
  | _ => none

/-- pbl3_v4 find_freq_at_db, lines 945-961: at the first sign change idx,
if idx+1 < len(w), interpolate when abs(db2 - db1) > 1e-6, else return w1;
return None when there is no sign change (or idx+1 is out of range). -/
noncomputable def find_freq_at_db (w H_db : List ℝ) (target_db : ℝ) : Option ℝ :=
  (firstSignChange target_db H_db).bind fun idx =>
    if idx + 1 < w.length then
      if 1e-6 < |H_db.getD (idx + 1) 0 - H_db.getD idx 0| then
        some (w.getD idx 0 + (target_db - H_db.getD idx 0) *
          (w.getD (idx + 1) 0 - w.getD idx 0) /
          (H_db.getD (idx + 1) 0 - H_db.getD idx 0))
      else some (w.getD idx 0)
    else none

/-- For odd N the integer center index (N-1)/2 sits exactly at the real
center alpha = (N-1)/2 used by the source loops. -/
lemma center_cast (N : ℕ) (hN : Odd N) :
    (((N - 1) / 2 : ℕ) : ℝ) = ((N : ℝ) - 1) / 2 := by
  obtain ⟨m, hm⟩ := hN
  subst hm
  have h : (2 * m + 1 - 1) / 2 = m := by omega
  rw [h]
  push_cast
  ring

/-- Reflecting the index about the center negates the centered coordinate. -/
lemma reflect_cast (N i : ℕ) (hi : i < N) :
    ((N - 1 - i : ℕ) : ℝ) - ((N : ℝ) - 1) / 2 = -((i : ℝ) - ((N : ℝ) - 1) / 2) := by
  have h1 : i ≤ N - 1 := by omega
  have h2 : 1 ≤ N := by omega
  rw [Nat.cast_sub h1, Nat.cast_sub h2, Nat.cast_one]
  ring

/-- Each sinc-style term of the ideal responses is even in the centered
coordinate. -/
lemma sin_term_neg (w x : ℝ) :
    Real.sin (w * -x) / (π * -x) = Real.sin (w * x) / (π * x) := by
  rw [mul_neg, Real.sin_neg, mul_neg, neg_div_neg_eq]

/-- C3: for every filter kind and every odd length N the ideal impulse
response of pbl3_v4 ideal_filter is exactly symmetric about its center:
h[i] = h[N-1-i] for every index i < N. -/
theorem ideal_filter_symmetric (ft : FilterType) (N : ℕ) (wc1 wc2 : ℝ)
    (_hN : Odd N) (_h0 : 0 < wc1) (_h12 : wc1 < wc2) (_h2 : wc2 < π) :
    ∀ i < N, idealVal ft N wc1 wc2 i = idealVal ft N wc1 wc2 (N - 1 - i) := by
  intro i hi
  have hx := reflect_cast N i hi
  cases ft <;>
    (simp only [idealVal]
     rw [hx, abs_neg]
     split_ifs with hc
     all_goals first
       | rfl
       | simp only [sin_term_neg])

/-- Witness for C3 at bandpass, N = 11, cutoffs pi/4 < pi/2. -/
theorem ideal_filter_symmetric_witness :
    Odd 11 ∧ 0 < π / 4 ∧ π / 4 < π / 2 ∧ π / 2 < π ∧
      ∀ i < 11, idealVal .bandpass 11 (π / 4) (π / 2) i =
        idealVal .bandpass 11 (π / 4) (π / 2) (11 - 1 - i) :=
  ⟨⟨5, by norm_num⟩, by positivity, by linarith [Real.pi_pos], by linarith [Real.pi_pos],
    ideal_filter_symmetric .bandpass 11 (π / 4) (π / 2) ⟨5, by norm_num⟩
      (by positivity) (by linarith [Real.pi_pos]) (by linarith [Real.pi_pos])⟩

/-- C1 (amended): for odd N and 0 < wc < 1, the center tap of pbl3_v4's
ideal lowpass (cutoff wc*pi radians) is exactly wc, while the center tap of
versao_nova's ideal_lowpass at fc_norm = wc is 2*wc. -/
theorem lowpass_center (N : ℕ) (wc : ℝ) (hN : Odd N) (_h0 : 0 < wc) (_h1 : wc < 1) :
    idealVal .lowpass N (wc * π) 0 ((N - 1) / 2) = wc ∧
      ideal_lowpass N wc ((N - 1) / 2) = 2 * wc := by
  have hc := center_cast N hN
  constructor
  · simp only [idealVal]
    rw [hc, sub_self, abs_zero, if_pos (by norm_num : (0:ℝ) < 1e-10)]
    exact mul_div_cancel_right₀ wc Real.pi_ne_zero
  · unfold ideal_lowpass
    rw [hc, sub_self, abs_zero, if_pos (by norm_num : (0:ℝ) < 1e-10)]

/-- Witness for C1's amended statement at N = 11, wc = 1/2. -/
theorem lowpass_center_witness :
    Odd 11 ∧ 0 < (1/2 : ℝ) ∧ (1/2 : ℝ) < 1 ∧
      idealVal .lowpass 11 ((1/2) * π) 0 ((11 - 1) / 2) = 1/2 ∧
      ideal_lowpass 11 (1/2) ((11 - 1) / 2) = 2 * (1/2) :=
  ⟨⟨5, by norm_num⟩, by norm_num, by norm_num,
    (lowpass_center 11 (1/2) ⟨5, by norm_num⟩ (by norm_num) (by norm_num)).1,
    (lowpass_center 11 (1/2) ⟨5, by norm_num⟩ (by norm_num) (by norm_num)).2⟩

/-- C1 (counterexample): versao_nova's ideal_lowpass with N = 11 and
fc_norm = 1/2 has center tap 1, not 1/2; the claimed 1e-9 tolerance fails. -/
theorem lowpass_center_counterexample :
    ideal_lowpass 11 (1/2) 5 = 1 ∧ ¬ |ideal_lowpass 11 (1/2) 5 - 1/2| ≤ 1e-9 := by
  have h : ideal_lowpass 11 (1/2) 5 = 1 := by
    unfold ideal_lowpass
    rw [show ((5 : ℕ) : ℝ) - (((11 : ℕ) : ℝ) - 1) / 2 = 0 by push_cast; ring,
      abs_zero, if_pos (by norm_num : (0:ℝ) < 1e-10)]
    norm_num
  refine ⟨h, ?_⟩
  rw [h]
  norm_num [abs_le]

/-- C4: the Kaiser estimator fails exactly when its preconditions are
violated (delta <= 0 or delta >= 1, or wp >= ws, or wp <= 0, or ws >= pi);
the embedding returns none in that case, producing no partial tuple, and
returns the complete tuple otherwise. -/
theorem kaiser_fails_iff_invalid (delta wp ws : ℝ) :
    design_kaiser_filter delta wp ws = none ↔
      (delta ≤ 0 ∨ 1 ≤ delta ∨ ws ≤ wp ∨ wp ≤ 0 ∨ π ≤ ws) := by
  unfold design_kaiser_filter
  by_cases h1 : delta ≤ 0 ∨ 1 ≤ delta
  · simp only [if_pos h1]
    tauto
  · rw [if_neg h1]
    by_cases h2 : ws ≤ wp
    · simp only [if_pos h2]
      tauto
    · rw [if_neg h2]
      by_cases h3 : wp ≤ 0 ∨ π ≤ ws
      · simp only [if_pos h3]
        tauto
      · rw [if_neg h3]
        simp only [reduceCtorEq, false_iff]
        push_neg at h1 h2 h3
        push_neg
        exact ⟨h1.1, h1.2, h2, h3.1, h3.2⟩

/-- A = -20*log10(delta) at delta = 0.01 is exactly 40 dB. -/
lemma kaiserA_hundredth : kaiserA (1/100) = 40 := by
  unfold kaiserA
  have h : (1/100 : ℝ) = (10 : ℝ) ^ ((-2 : ℤ) : ℝ) := by
    rw [Real.rpow_intCast]
    norm_num
  rw [h, Real.logb_rpow (by norm_num) (by norm_num)]
  norm_num

/-- At A = 40 the middle branch of the beta rule is taken. -/
lemma kaiserBeta_forty_eq :
    kaiserBeta 40 = 0.5842 * ((40 : ℝ) - 21) ^ (0.4 : ℝ) + 0.07886 * ((40 : ℝ) - 21) := by
  unfold kaiserBeta
  rw [if_neg (by norm_num), if_pos (by constructor <;> norm_num)]

/-- Bracketing of 19^0.4 via its fifth power 361. -/
lemma nineteen_rpow_bounds : 3.24 < (19 : ℝ) ^ (0.4 : ℝ) ∧ (19 : ℝ) ^ (0.4 : ℝ) < 3.25 := by
  have hpos : (0 : ℝ) < (19 : ℝ) ^ (0.4 : ℝ) := Real.rpow_pos_of_pos (by norm_num) _
  have h5 : ((19 : ℝ) ^ (0.4 : ℝ)) ^ (5 : ℕ) = 361 := by
    rw [← Real.rpow_natCast ((19 : ℝ) ^ (0.4 : ℝ)) 5,
      ← Real.rpow_mul (by norm_num : (0 : ℝ) ≤ 19)]
    have h04 : (0.4 : ℝ) * ((5 : ℕ) : ℝ) = ((2 : ℕ) : ℝ) := by norm_num
    rw [h04, Real.rpow_natCast]
    norm_num
  constructor
  · by_contra hle
    push_neg at hle
    have := pow_le_pow_left₀ hpos.le hle 5
    rw [h5] at this
    norm_num at this
  · by_contra hge
    push_neg at hge
    have := pow_le_pow_left₀ (by norm_num : (0 : ℝ) ≤ 3.25) hge 5
    rw [h5] at this
    norm_num at this

/-- The raw ceiling step at the spec's concrete case gives 23. -/
lemma kaiserRawM_case : kaiserRawM (1/100) (0.4 * π) (0.6 * π) = 23 := by
  unfold kaiserRawM
  rw [kaiserA_hundredth]
  have hd : 2.285 * (0.6 * π - 0.4 * π) = 0.457 * π := by ring
  rw [hd, Int.ceil_eq_iff]
  have hpos : (0 : ℝ) < 0.457 * π := by positivity
  constructor
  · rw [show (((23 : ℤ) : ℝ) - 1) = 22 by norm_num, lt_div_iff₀ hpos]
    nlinarith [Real.pi_lt_d2]
  · rw [show ((23 : ℤ) : ℝ) = 23 by norm_num, div_le_iff₀ hpos]
    nlinarith [Real.pi_gt_d2]

/-- The odd-rounding and clamping steps leave 23 unchanged. -/
lemma kaiserM_case : kaiserM (1/100) (0.4 * π) (0.6 * π) = 23 := by
  unfold kaiserM
  rw [kaiserRawM_case]
  decide

/-- On valid inputs the estimator returns exactly the formula tuple. -/
lemma design_kaiser_filter_eq (delta wp ws : ℝ) (h1 : 0 < delta) (h2 : delta < 1)
    (h3 : 0 < wp) (h4 : wp < ws) (h5 : ws < π) :
    design_kaiser_filter delta wp ws =
      some (kaiserA delta, kaiserBeta (kaiserA delta), kaiserM delta wp ws, (wp + ws) / 2) := by
  unfold design_kaiser_filter
  rw [if_neg (by push_neg; exact ⟨h1, h2⟩), if_neg (by push_neg; exact h4),
    if_neg (by push_neg; exact ⟨h3, h5⟩)]

/-- C2: on valid inputs the Kaiser estimator returns A = -20*log10(delta),
beta from the three A-branches, the clamped odd-rounded ceiling order, and
wc = (wp+ws)/2; at delta = 0.01, wp = 0.4*pi, ws = 0.6*pi it gives A = 40,
beta by the 21-50 branch with 3.39 < beta < 3.40, and order 23. -/
theorem kaiser_estimator_formulas (delta wp ws : ℝ) (h1 : 0 < delta) (h2 : delta < 1)
    (h3 : 0 < wp) (h4 : wp < ws) (h5 : ws < π) :
    design_kaiser_filter delta wp ws =
      some (kaiserA delta, kaiserBeta (kaiserA delta),
        clampOrder (oddify ⌈(kaiserA delta - 8) / (2.285 * (ws - wp))⌉), (wp + ws) / 2) ∧
    (∀ A : ℝ, 50 < A → kaiserBeta A = 0.1102 * (A - 8.7)) ∧
    (∀ A : ℝ, 21 ≤ A → A ≤ 50 →
      kaiserBeta A = 0.5842 * (A - 21) ^ (0.4 : ℝ) + 0.07886 * (A - 21)) ∧
    (∀ A : ℝ, A < 21 → kaiserBeta A = 0) ∧
    kaiserA (1/100) = 40 ∧
    kaiserBeta 40 = 0.5842 * ((40 : ℝ) - 21) ^ (0.4 : ℝ) + 0.07886 * ((40 : ℝ) - 21) ∧
    3.39 < kaiserBeta 40 ∧ kaiserBeta 40 < 3.40 ∧
    kaiserM (1/100) (0.4 * π) (0.6 * π) = 23 := by
  obtain ⟨hlo, hhi⟩ := nineteen_rpow_bounds
  have hbeta := kaiserBeta_forty_eq
  have h19 : ((40 : ℝ) - 21) = 19 := by norm_num
  rw [h19] at hbeta
  refine ⟨design_kaiser_filter_eq delta wp ws h1 h2 h3 h4 h5, ?_, ?_, ?_, kaiserA_hundredth,
    kaiserBeta_forty_eq, ?_, ?_, kaiserM_case⟩
  · intro A hA
    unfold kaiserBeta
    rw [if_pos hA]
  · intro A h21 h50
    unfold kaiserBeta
    rw [if_neg (not_lt.mpr h50), if_pos ⟨h21, h50⟩]
  · intro A hA
    unfold kaiserBeta
    rw [if_neg (by linarith), if_neg (fun hand => absurd hand.1 (by linarith))]
  · rw [hbeta]; nlinarith
  · rw [hbeta]; nlinarith

/-- Witness for C2 at delta = 0.01, wp = 0.4*pi, ws = 0.6*pi. -/
theorem kaiser_estimator_formulas_witness :
    0 < (1/100 : ℝ) ∧ (1/100 : ℝ) < 1 ∧ 0 < 0.4 * π ∧ 0.4 * π < 0.6 * π ∧ 0.6 * π < π ∧
      design_kaiser_filter (1/100) (0.4 * π) (0.6 * π) =
        some (kaiserA (1/100), kaiserBeta (kaiserA (1/100)),
          clampOrder (oddify ⌈(kaiserA (1/100) - 8) / (2.285 * (0.6 * π - 0.4 * π))⌉),
          (0.4 * π + 0.6 * π) / 2) :=
  ⟨by norm_num, by norm_num, by positivity, by linarith [Real.pi_pos], by linarith [Real.pi_pos],
    (kaiser_estimator_formulas (1/100) (0.4 * π) (0.6 * π) (by norm_num) (by norm_num)
      (by positivity) (by linarith [Real.pi_pos]) (by linarith [Real.pi_pos])).1⟩

/-- A = -20*log10(delta) is antitone in delta on (0, infinity). -/
lemma kaiserA_anti (d1 d2 : ℝ) (h2 : 0 < d2) (h21 : d2 ≤ d1) :
    kaiserA d1 ≤ kaiserA d2 := by
  unfold kaiserA
  have hlog := Real.log_le_log h2 h21
  have hl10 : 0 < Real.log 10 := Real.log_pos (by norm_num)
  rw [Real.logb, Real.logb]
  have hdiv : Real.log d2 / Real.log 10 ≤ Real.log d1 / Real.log 10 := by gcongr
  linarith

/-- The odd-rounding step is monotone. -/
lemma oddify_mono {a b : ℤ} (h : a ≤ b) : oddify a ≤ oddify b := by
  unfold oddify
  split_ifs <;> omega

/-- The clamp to 11..201 is monotone. -/
lemma clampOrder_mono {a b : ℤ} (h : a ≤ b) : clampOrder a ≤ clampOrder b :=
  max_le_max (le_refl _) (min_le_min (le_refl _) h)

/-- C5: for fixed band edges 0 < wp < ws < pi, decreasing delta never
decreases the Kaiser-estimated order, through the ceiling, odd-rounding
and clamping steps. -/
theorem kaiser_order_antitone (delta1 delta2 wp ws : ℝ)
    (h1 : 0 < delta2) (h2 : delta2 ≤ delta1) (_h3 : delta1 < 1)
    (_h4 : 0 < wp) (h5 : wp < ws) (_h6 : ws < π) :
    kaiserM delta1 wp ws ≤ kaiserM delta2 wp ws := by
  unfold kaiserM
  apply clampOrder_mono
  apply oddify_mono
  unfold kaiserRawM
  apply Int.ceil_mono
  have hA := kaiserA_anti delta1 delta2 h1 h2
  have hden : (0 : ℝ) < 2.285 * (ws - wp) := by nlinarith
  gcongr

/-- Witness for C5 at delta1 = 1/2, delta2 = 1/4, wp = 1, ws = 2. -/
theorem kaiser_order_antitone_witness :
    0 < (1/4 : ℝ) ∧ (1/4 : ℝ) ≤ 1/2 ∧ (1/2 : ℝ) < 1 ∧ 0 < (1 : ℝ) ∧ (1 : ℝ) < 2 ∧
      (2 : ℝ) < π ∧ kaiserM (1/2) 1 2 ≤ kaiserM (1/4) 1 2 :=
  ⟨by norm_num, by norm_num, by norm_num, by norm_num, by norm_num,
    by linarith [Real.pi_gt_three],
    kaiser_order_antitone (1/2) (1/4) 1 2 (by norm_num) (by norm_num) (by norm_num)
      (by norm_num) (by norm_num) (by linarith [Real.pi_gt_three])⟩

/-- The odd-rounding step always yields an odd integer. -/
lemma oddify_odd (m : ℤ) : Odd (oddify m) := by
  unfold oddify
  split_ifs with h <;> exact Int.odd_iff.mpr (by omega)

/-- The clamp preserves oddness because both of its bounds are odd. -/
lemma clampOrder_odd {m : ℤ} (h : Odd m) : Odd (clampOrder m) := by
  unfold clampOrder
  rw [Int.odd_iff] at h ⊢
  rcases le_total m 201 with h1 | h1
  · rw [min_eq_right h1]
    rcases le_total 11 m with h2 | h2
    · rw [max_eq_right h2]
      exact h
    · rw [max_eq_left h2]
      decide
  · rw [min_eq_left h1]
    decide

/-- The clamp lands in the closed interval 11..201. -/
lemma clampOrder_bounds (m : ℤ) : 11 ≤ clampOrder m ∧ clampOrder m ≤ 201 :=
  ⟨le_max_left _ _, max_le (by norm_num) (min_le_left _ _)⟩

/-- C9: on every input meeting the Kaiser preconditions the produced order
is odd and lies in the closed interval 11..201, whose bounds (the clamp
constants of line 431) are both odd. -/
theorem kaiser_order_odd_in_range (delta wp ws : ℝ)
    (_h1 : 0 < delta) (_h2 : delta < 1) (_h3 : 0 < wp) (_h4 : wp < ws) (_h5 : ws < π) :
    Odd (kaiserM delta wp ws) ∧ 11 ≤ kaiserM delta wp ws ∧ kaiserM delta wp ws ≤ 201 ∧
      Odd (11 : ℤ) ∧ Odd (201 : ℤ) := by
  unfold kaiserM
  exact ⟨clampOrder_odd (oddify_odd _), (clampOrder_bounds _).1, (clampOrder_bounds _).2,
    ⟨5, by norm_num⟩, ⟨100, by norm_num⟩⟩

/-- Witness for C9 at delta = 1/2, wp = 1, ws = 2. -/
theorem kaiser_order_odd_in_range_witness :
    0 < (1/2 : ℝ) ∧ (1/2 : ℝ) < 1 ∧ 0 < (1 : ℝ) ∧ (1 : ℝ) < 2 ∧ (2 : ℝ) < π ∧
      (Odd (kaiserM (1/2) 1 2) ∧ 11 ≤ kaiserM (1/2) 1 2 ∧ kaiserM (1/2) 1 2 ≤ 201 ∧
        Odd (11 : ℤ) ∧ Odd (201 : ℤ)) :=
  ⟨by norm_num, by norm_num, by norm_num, by norm_num, by linarith [Real.pi_gt_three],
    kaiser_order_odd_in_range (1/2) 1 2 (by norm_num) (by norm_num) (by norm_num)
      (by norm_num) (by linarith [Real.pi_gt_three])⟩

/-- Every term of the I0 power series is nonnegative (even powers). -/
lemma besselI0_term_nonneg (x : ℝ) (k : ℕ) :
    0 ≤ (x / 2) ^ (2 * k) / ((Nat.factorial k : ℝ)) ^ 2 := by
  apply div_nonneg
  · rw [pow_mul]
    positivity
  · positivity

/-- The I0 power series is summable (dominated by the exponential series). -/
lemma besselI0_summable (x : ℝ) :
    Summable (fun k : ℕ => (x / 2) ^ (2 * k) / ((Nat.factorial k : ℝ)) ^ 2) := by
  apply Summable.of_nonneg_of_le (besselI0_term_nonneg x) ?_
    (Real.summable_pow_div_factorial ((x / 2) ^ 2))
  intro k
  rw [pow_mul]
  have h1 : (0 : ℝ) < (Nat.factorial k : ℝ) := by exact_mod_cast Nat.factorial_pos k
  have h1' : (1 : ℝ) ≤ (Nat.factorial k : ℝ) := by exact_mod_cast Nat.factorial_pos k
  have h2 : ((Nat.factorial k : ℝ)) ≤ ((Nat.factorial k : ℝ)) ^ 2 := by nlinarith
  gcongr

/-- I0 is at least its k = 0 term, which is 1. -/
lemma besselI0_one_le (x : ℝ) : 1 ≤ besselI0 x := by
  unfold besselI0
  have h := le_tsum (besselI0_summable x) 0 (fun j _ => besselI0_term_nonneg x j)
  simpa [Nat.factorial] using h

/-- I0 is positive everywhere. -/
lemma besselI0_pos (x : ℝ) : 0 < besselI0 x :=
  lt_of_lt_of_le one_pos (besselI0_one_le x)

/-- I0 is monotone on the nonnegative axis. -/
lemma besselI0_mono {x y : ℝ} (hx : 0 ≤ x) (hxy : x ≤ y) : besselI0 x ≤ besselI0 y := by
  unfold besselI0
  apply tsum_le_tsum ?_ (besselI0_summable x) (besselI0_summable y)
  intro k
  have hx2 : 0 ≤ x / 2 := by linarith
  have hxy2 : x / 2 ≤ y / 2 := by linarith
  gcongr

/-- Every coefficient of every supported window lies in the closed unit
interval, for window lengths N >= 2 and nonnegative kaiser beta. -/
lemma windowVal_mem (wk : WindowKind) (N : ℕ) (beta : ℝ) (i : ℕ)
    (hN : 2 ≤ N) (hi : i < N) (hb : 0 ≤ beta) :
    0 ≤ windowVal wk N beta i ∧ windowVal wk N beta i ≤ 1 := by
  have hM : (0 : ℝ) < (N : ℝ) - 1 := by
    have : (2 : ℝ) ≤ (N : ℝ) := by exact_mod_cast hN
    linarith
  have hiM : (i : ℝ) ≤ (N : ℝ) - 1 := by
    have h1 : i ≤ N - 1 := by omega
    have h2 : ((N - 1 : ℕ) : ℝ) = (N : ℝ) - 1 := by
      rw [Nat.cast_sub (by omega), Nat.cast_one]
    rw [← h2]
    exact_mod_cast h1
  cases wk
  case rectangular => simp [windowVal]
  case hamming =>
    simp only [windowVal]
    have hc1 := Real.cos_le_one (2 * π * (i : ℝ) / ((N : ℝ) - 1))
    have hc2 := Real.neg_one_le_cos (2 * π * (i : ℝ) / ((N : ℝ) - 1))
    constructor <;> linarith
  case hanning =>
    simp only [windowVal]
    have hc1 := Real.cos_le_one (2 * π * (i : ℝ) / ((N : ℝ) - 1))
    have hc2 := Real.neg_one_le_cos (2 * π * (i : ℝ) / ((N : ℝ) - 1))
    constructor <;> linarith
  case blackman =>
    simp only [windowVal]
    have h2x : (4 * π * (i : ℝ) / ((N : ℝ) - 1)) = 2 * (2 * π * (i : ℝ) / ((N : ℝ) - 1)) := by
      ring
    rw [h2x, Real.cos_two_mul]
    have hc1 : Real.cos (2 * π * (i : ℝ) / ((N : ℝ) - 1)) ≤ 1 := Real.cos_le_one _
    have hc2 : -1 ≤ Real.cos (2 * π * (i : ℝ) / ((N : ℝ) - 1)) := Real.neg_one_le_cos _
    constructor
    · nlinarith [mul_nonneg (by linarith : (0:ℝ) ≤ 1 - Real.cos (2 * π * (i : ℝ) / ((N : ℝ) - 1)))
        (by linarith : (0:ℝ) ≤ 2.125 - Real.cos (2 * π * (i : ℝ) / ((N : ℝ) - 1)))]
    · nlinarith [mul_nonneg (by linarith : (0:ℝ) ≤ 1 + Real.cos (2 * π * (i : ℝ) / ((N : ℝ) - 1)))
        (by linarith : (0:ℝ) ≤ 0.66 - 0.16 * Real.cos (2 * π * (i : ℝ) / ((N : ℝ) - 1)))]
  case bartlett =>
    simp only [windowVal]
    split_ifs with h
    · constructor
      · exact div_nonneg (by positivity) hM.le
      · rw [div_le_one hM]
        linarith
    · push_neg at h
      constructor
      · have hle : 2 * (i : ℝ) / ((N : ℝ) - 1) ≤ 2 := by
          rw [div_le_iff₀ hM]
          linarith
        linarith
      · have hge : 1 ≤ 2 * (i : ℝ) / ((N : ℝ) - 1) := by
          rw [le_div_iff₀ hM]
          linarith
        linarith
  case kaiser =>
    simp only [windowVal]
    have hu : (2 * (i : ℝ) / ((N : ℝ) - 1) - 1) ^ 2 ≤ 1 := by
      have h0 : 0 ≤ 2 * (i : ℝ) / ((N : ℝ) - 1) := div_nonneg (by positivity) hM.le
      have h1 : 2 * (i : ℝ) / ((N : ℝ) - 1) ≤ 2 := by
        rw [div_le_iff₀ hM]
        linarith
      nlinarith [mul_nonneg h0 (by linarith : (0:ℝ) ≤ 2 - 2 * (i : ℝ) / ((N : ℝ) - 1))]
    have hsq : Real.sqrt (1 - (2 * (i : ℝ) / ((N : ℝ) - 1) - 1) ^ 2) ≤ 1 :=
      Real.sqrt_le_one.mpr (by nlinarith [sq_nonneg (2 * (i : ℝ) / ((N : ℝ) - 1) - 1)])
    have ha0 : 0 ≤ beta * Real.sqrt (1 - (2 * (i : ℝ) / ((N : ℝ) - 1) - 1) ^ 2) :=
      mul_nonneg hb (Real.sqrt_nonneg _)
    have hab : beta * Real.sqrt (1 - (2 * (i : ℝ) / ((N : ℝ) - 1) - 1) ^ 2) ≤ beta := by
      calc beta * Real.sqrt (1 - (2 * (i : ℝ) / ((N : ℝ) - 1) - 1) ^ 2) ≤ beta * 1 :=
            mul_le_mul_of_nonneg_left hsq hb
        _ = beta := mul_one beta
    constructor
    · exact div_nonneg (besselI0_pos _).le (besselI0_pos _).le
    · rw [div_le_one (besselI0_pos _)]
      exact besselI0_mono ha0 hab

/-- C6: for every window kind and N in {11, 51, 101, 201} (kaiser beta in
0..15), get_window returns exactly N coefficients, all in the closed unit
interval. -/
theorem window_length_and_range (wk : WindowKind) (N : ℕ) (beta : ℝ)
    (hN : N = 11 ∨ N = 51 ∨ N = 101 ∨ N = 201) (hb0 : 0 ≤ beta) (_hb15 : beta ≤ 15) :
    (get_window wk N beta).length = N ∧ ∀ v ∈ get_window wk N beta, 0 ≤ v ∧ v ≤ 1 := by
  have hN2 : 2 ≤ N := by rcases hN with h | h | h | h <;> omega
  constructor
  · simp [get_window]
  · intro v hv
    simp only [get_window, List.mem_map, List.mem_range] at hv
    obtain ⟨i, hi, rfl⟩ := hv
    exact windowVal_mem wk N beta i hN2 hi hb0

/-- Witness for C6 at the kaiser window, N = 11, beta = 8. -/
theorem window_length_and_range_witness :
    ((11 : ℕ) = 11 ∨ (11 : ℕ) = 51 ∨ (11 : ℕ) = 101 ∨ (11 : ℕ) = 201) ∧ (0:ℝ) ≤ 8 ∧ (8:ℝ) ≤ 15 ∧
      ((get_window .kaiser 11 8).length = 11 ∧
        ∀ v ∈ get_window .kaiser 11 8, 0 ≤ v ∧ v ≤ 1) :=
  ⟨Or.inl rfl, by norm_num, by norm_num,
    window_length_and_range .kaiser 11 8 (Or.inl rfl) (by norm_num) (by norm_num)⟩

/-- C7 (refuting the claimed guard): pbl3_v4 get_window has no N = 1
special case; at N = 1 the divisor M = N-1 is 0, so the bartlett branch
computes 2*0/0 (Python: ZeroDivisionError) and the cosine branches hit
numpy 0/0 (NaN).  In the exact-real embedding (x/0 = 0) the bartlett result
is [0], not the claimed [1.0]. -/
theorem window_N1_not_unit :
    get_window .bartlett 1 0 = [2 * (0 : ℝ) / 0] ∧ get_window .bartlett 1 0 ≠ [1] := by
  have h : get_window .bartlett 1 0 = [0] := by
    unfold get_window
    rw [show List.range 1 = [0] from rfl]
    simp only [List.map_cons, List.map_nil]
    norm_num [windowVal]
  constructor
  · rw [h]
    norm_num
  · rw [h]
    simp

/-- C10: the explicit Hamming formula of pbl3_v4 get_window coincides
elementwise with the (spec-modelled) scipy symmetric Hamming window used by
versao_nova design_filter. -/
theorem hamming_windows_equivalent (N : ℕ) (beta : ℝ) (_hN : 2 ≤ N) :
    get_window .hamming N beta = scipy_hamming N := by
  unfold get_window scipy_hamming
  have hf : windowVal .hamming N beta =
      fun n : ℕ => 0.54 - 0.46 * Real.cos (2 * π * (n : ℝ) / ((N : ℝ) - 1)) := by
    funext n
    simp only [windowVal]
  rw [hf]

/-- Witness for C10 at N = 11. -/
theorem hamming_windows_equivalent_witness :
    (2 : ℕ) ≤ 11 ∧ get_window .hamming 11 0 = scipy_hamming 11 :=
  ⟨by norm_num, hamming_windows_equivalent 11 0 (by norm_num)⟩

/-- sgn of a negative is -1. -/
lemma sgn_of_neg {x : ℝ} (h : x < 0) : sgn x = -1 := by
  unfold sgn
  rw [if_pos h]

/-- sgn of a positive is 1. -/
lemma sgn_of_pos {x : ℝ} (h : 0 < x) : sgn x = 1 := by
  unfold sgn
  rw [if_neg (by linarith), if_pos h]

/-- Unfolding equation of firstSignChange on a two-or-more element list. -/
lemma firstSignChange_cons2 (t a b : ℝ) (rest : List ℝ) :
    firstSignChange t (a :: b :: rest) =
      if sgn (a - t) ≠ sgn (b - t) then some 0
      else Option.map (fun k => k + 1) (firstSignChange t (b :: rest)) := by
  conv_lhs => unfold firstSignChange

/-- When no adjacent pair of the dB curve changes sign, the index search
comes back empty. -/
lemma firstSignChange_eq_none (t : ℝ) :
    ∀ db : List ℝ,
      (∀ j, j + 1 < db.length → sgn (db.getD j 0 - t) = sgn (db.getD (j + 1) 0 - t)) →
      firstSignChange t db = none := by
  intro db
  induction db with
  | nil => intro _; rfl
  | cons a rest ih =>
    intro h
    cases rest with
    | nil => rfl
    | cons b rest2 =>
      have h0 : sgn (a - t) = sgn (b - t) := by
        have := h 0 (by simp)
        simpa using this
      rw [firstSignChange_cons2, if_neg (not_not_intro h0)]
      have h' : ∀ j, j + 1 < (b :: rest2).length →
          sgn ((b :: rest2).getD j 0 - t) = sgn ((b :: rest2).getD (j + 1) 0 - t) := by
        intro j hj
        have := h (j + 1) (by simpa using Nat.succ_lt_succ hj)
        simpa using this
      rw [ih h']
      rfl

/-- The index returned by the search is in range, marks a sign change, and
is the first such index. -/
lemma firstSignChange_spec (t : ℝ) :
    ∀ (db : List ℝ) (i : ℕ), firstSignChange t db = some i →
      i + 1 < db.length ∧ sgn (db.getD i 0 - t) ≠ sgn (db.getD (i + 1) 0 - t) ∧
        ∀ j < i, sgn (db.getD j 0 - t) = sgn (db.getD (j + 1) 0 - t) := by
  intro db
  induction db with
  | nil =>
    intro i h
    rw [show firstSignChange t ([] : List ℝ) = none from rfl] at h
    exact Option.noConfusion h
  | cons a rest ih =>
    intro i h
    cases rest with
    | nil =>
      rw [show firstSignChange t [a] = none from rfl] at h
      exact Option.noConfusion h
    | cons b rest2 =>
      rw [firstSignChange_cons2] at h
      by_cases hc : sgn (a - t) ≠ sgn (b - t)
      · rw [if_pos hc] at h
        have hi0 : i = 0 := by simpa using h.symm
        subst hi0
        exact ⟨by simp, by simpa using hc, by omega⟩
      · rw [if_neg hc] at h
        cases hfs : firstSignChange t (b :: rest2) with
        | none =>
          rw [hfs] at h
          rw [show Option.map (fun k => k + 1) (none : Option ℕ) = none from rfl] at h
          exact Option.noConfusion h
        | some k =>
          rw [hfs] at h
          rw [show Option.map (fun k => k + 1) (some k) = some (k + 1) from rfl] at h
          have hik : k + 1 = i := Option.some.inj h
          subst hik
          obtain ⟨h1, h2, h3⟩ := ih k hfs
          refine ⟨by simpa using Nat.succ_lt_succ h1, by simpa using h2, ?_⟩
          intro j hj
          cases j with
          | zero => simpa using not_not.mp hc
          | succ j' =>
            have := h3 j' (by omega)
            simpa using this

/-- C8 (amended): find_freq_at_db returns none when the dB curve never
crosses the target level; at the first sign-change index i (with i+1 in
range of the frequency grid) it returns the linear interpolation when
the dB step exceeds 1e-6 in magnitude, and the left grid point w[i]
otherwise. -/
theorem find_freq_characterization (w db : List ℝ) (t : ℝ) :
    ((∀ j, j + 1 < db.length → sgn (db.getD j 0 - t) = sgn (db.getD (j + 1) 0 - t)) →
        find_freq_at_db w db t = none) ∧
      (∀ i, firstSignChange t db = some i →
        (sgn (db.getD i 0 - t) ≠ sgn (db.getD (i + 1) 0 - t) ∧
          ∀ j < i, sgn (db.getD j 0 - t) = sgn (db.getD (j + 1) 0 - t)) ∧
        (i + 1 < w.length →
          find_freq_at_db w db t =
            if 1e-6 < |db.getD (i + 1) 0 - db.getD i 0| then
              some (w.getD i 0 + (t - db.getD i 0) * (w.getD (i + 1) 0 - w.getD i 0) /
                (db.getD (i + 1) 0 - db.getD i 0))
            else some (w.getD i 0))) := by
  constructor
  · intro h
    unfold find_freq_at_db
    rw [firstSignChange_eq_none t db h, Option.none_bind]
  · intro i hi
    refine ⟨⟨(firstSignChange_spec t db i hi).2.1, (firstSignChange_spec t db i hi).2.2⟩, ?_⟩
    intro hw
    unfold find_freq_at_db
    rw [hi, Option.some_bind, if_pos hw]

/-- Witness for C8's amended statement on the grid w = [0, 1] with
dB curve [-1, 1] and target 0: the crossing interpolates to 1/2. -/
theorem find_freq_characterization_witness :
    firstSignChange 0 [(-1 : ℝ), 1] = some 0 ∧ 0 + 1 < ([(0 : ℝ), 1]).length ∧
      find_freq_at_db [0, 1] [-1, 1] 0 = some (1/2) := by
  have hfs : firstSignChange 0 [(-1 : ℝ), 1] = some 0 := by
    rw [firstSignChange_cons2, if_pos]
    rw [sgn_of_neg (by norm_num : (-1 : ℝ) - 0 < 0), sgn_of_pos (by norm_num : (0:ℝ) < 1 - 0)]
    norm_num
  refine ⟨hfs, by norm_num, ?_⟩
  have h := ((find_freq_characterization [0, 1] [-1, 1] 0).2 0 hfs).2 (by norm_num)
  rw [h]
  have habs : |([(-1:ℝ), 1].getD (0 + 1) 0) - ([(-1:ℝ), 1].getD 0 0)| = 2 := by
    rw [show ([(-1:ℝ), 1].getD (0 + 1) 0) - ([(-1:ℝ), 1].getD 0 0) = 2 from by
      norm_num [List.getD]]
    exact abs_of_pos (by norm_num)
  rw [if_pos (by rw [habs]; norm_num)]
  norm_num [List.getD]

/-- C8 (counterexample): with the sign change [-4e-7, 4e-7] about target 0
the dB step is 8e-7 <= 1e-6, so the code returns the left grid point 0,
not the claimed interpolated frequency 1/2. -/
theorem find_freq_guard_counterexample :
    find_freq_at_db [0, 1] [-(1/2500000), 1/2500000] 0 = some 0 ∧
      (0 : ℝ) + (0 - -(1/2500000)) * (1 - 0) / (1/2500000 - -(1/2500000)) = 1/2 ∧
      (0 : ℝ) ≠ 1/2 := by
  have hfs : firstSignChange 0 [-(1/2500000 : ℝ), 1/2500000] = some 0 := by
    rw [firstSignChange_cons2, if_pos]
    rw [sgn_of_neg (by norm_num : -(1/2500000 : ℝ) - 0 < 0),
      sgn_of_pos (by norm_num : (0:ℝ) < 1/2500000 - 0)]
    norm_num
  refine ⟨?_, by norm_num, by norm_num⟩
  unfold find_freq_at_db
  rw [hfs, Option.some_bind]
  rw [if_pos (by norm_num)]
  rw [if_neg (by norm_num [List.getD, abs_le])]
  norm_num [List.getD]

end FIR
